import Mathlib

/-!
Verification of the hermes-client repository (a Deno/TypeScript client that
couples an OpenAI model with an MCP tool provider and extracts structured,
schema-validated output from free-form model text).

The development shallowly embeds the relevant program parts:

- A JSON value tree (`Json`) models the values produced by JSON.parse and
  consumed by JSON.stringify (numbers are modelled as integers; the claims
  never depend on fractional values).
- A schema tree (`Schema`) models the zod combinators the source uses
  (z.string, z.number, z.boolean, z.literal, z.array, z.object with
  optional fields).  `zodParse` models zod .parse: it checks a value
  against a schema and strips unknown object keys, the default zod
  behaviour; `validate` (success of `zodParse`) models schema validation.
- A fuel-indexed recursive-descent JSON parser (`parseJson`) and a
  serializer (`serialize`) model JSON.parse / JSON.stringify.
- The extraction tail of HermesClient.searchWithStructuredOutput is
  embedded twice, following the two revisions present in the repository:
  `searchWithStructuredOutputExtract` (the fallback-mode client: no fence
  stripping) and `searchWithStructuredOutputExtractV3` (the earlier
  revision that strips markdown code fences before JSON.parse).
- The connection life cycle of the fallback-mode HermesClient is embedded
  as a state machine over `ClientState`.
- The HTTP route of mod.ts is embedded as `aiSearchRoute`.

Fuel-indexed definitions use structural recursion on the fuel so that all
of them compute by kernel reduction.
-/

/-- A JSON value, as produced by JSON.parse: null, booleans, numbers
(modelled as integers), strings, arrays and objects (ordered member
lists). -/
inductive Json where
  | null : Json
  | bool (flag : Bool) : Json
  | num (value : Int) : Json
  | str (text : String) : Json
  | arr (items : List Json) : Json
  | obj (entries : List (String × Json)) : Json
  deriving Repr

mutual

/-- Node count of a JSON value; used as a fuel bound. -/
def jsize : Json → Nat
  | .arr xs => 1 + jsizeL xs
  | .obj ms => 1 + jsizeM ms
  | _ => 1

/-- Node count of a list of JSON values. -/
def jsizeL : List Json → Nat
  | [] => 0
  | x :: xs => 1 + jsize x + jsizeL xs

/-- Node count of a list of JSON object members. -/
def jsizeM : List (String × Json) → Nat
  | [] => 0
  | (_, v) :: ms => 1 + jsize v + jsizeM ms

end

/-- A response schema, covering exactly the zod combinators used by the
hermes-client schemas: z.string(), z.number(), z.boolean(),
z.literal(tag), z.array(inner), and z.object(shape) where each field is
(name, field schema, optional flag) and optional models .optional(). -/
inductive Schema where
  | string : Schema
  | number : Schema
  | boolean : Schema
  | literal (value : String) : Schema
  | array (elem : Schema) : Schema
  | object (fields : List (String × Schema × Bool)) : Schema
  deriving Repr

mutual

/-- Nesting depth of a schema; used as a fuel bound (the zod model consumes
one unit of fuel per schema nesting level and none along lists). -/
def sdepth : Schema → Nat
  | .array e => 1 + sdepth e
  | .object fields => 1 + sdepthFields fields
  | _ => 1

/-- Maximal nesting depth over the field schemas of an object shape. -/
def sdepthFields : List (String × Schema × Bool) → Nat
  | [] => 0
  | (_, fs, _) :: rest => max (sdepth fs) (sdepthFields rest)

end

/-- True when a list of field names has no duplicates. -/
def nodupNames : List String → Bool
  | [] => true
  | x :: xs => (!xs.contains x) && nodupNames xs

mutual

/-- Well-formedness of a schema: object shapes never repeat a field name.
Every schema that arises from a zod object shape satisfies this, because a
JavaScript object literal cannot repeat a key. -/
def wfSchema : Schema → Bool
  | .array e => wfSchema e
  | .object fields => nodupNames (fields.map (fun f => f.1)) && wfFields fields
  | _ => true

/-- Well-formedness of every field schema in an object shape. -/
def wfFields : List (String × Schema × Bool) → Bool
  | [] => true
  | (_, fs, _) :: rest => wfSchema fs && wfFields rest

end

/-- Member access on a JSON object, as JavaScript property lookup on the
object produced by JSON.parse. -/
def lookupMember (name : String) : List (String × Json) → Option Json
  | [] => none
  | (k, v) :: rest => if k = name then some v else lookupMember name rest

/-- Element-wise array parsing with a given element parser. -/
def zodElemsGo (p : Json → Option Json) : List Json → Option (List Json)
  | [] => some []
  | x :: xs =>
    match p x, zodElemsGo p xs with
    | some y, some ys => some (y :: ys)
    | _, _ => none

/-- Field-wise object parsing with a given value parser: fields are parsed
in shape order against the member list; an absent field is accepted only
when optional (and omitted from the output). -/
def zodFieldsGo (p : Schema → Json → Option Json) :
    List (String × Schema × Bool) → List (String × Json) → Option (List (String × Json))
  | [], _ => some []
  | (n, fs, opt) :: rest, ms =>
    match lookupMember n ms with
    | some v =>
      match p fs v, zodFieldsGo p rest ms with
      | some w, some out => some ((n, w) :: out)
      | _, _ => none
    | none => if opt then zodFieldsGo p rest ms else none

/-- Fuel-indexed model of zod .parse.  On success it returns the parsed
value: scalars are returned as given; arrays are parsed element-wise;
objects are rebuilt in shape order keeping only the declared fields
(zod object schemas strip unknown keys by default), with optional fields
omitted when absent.  On a check failure it returns none (zod .parse
throws a ZodError).  Fuel is consumed once per schema nesting level. -/
def zodParseF : Nat → Schema → Json → Option Json
  | 0, _, _ => none
  | fuel + 1, s, j =>
    match s, j with
    | .string, .str t => some (.str t)
    | .number, .num n => some (.num n)
    | .boolean, .bool b => some (.bool b)
    | .literal v, .str t => if t = v then some (.str t) else none
    | .array e, .arr xs =>
      match zodElemsGo (zodParseF fuel e) xs with
      | some ys => some (.arr ys)
      | none => none
    | .object fields, .obj ms =>
      match zodFieldsGo (zodParseF fuel) fields ms with
      | some out => some (.obj out)
      | none => none
    | _, _ => none

/-- Model of zod .parse (schema.parse(value)): sufficient fuel is supplied
up front. -/
def zodParse (s : Schema) (j : Json) : Option Json :=
  zodParseF (sdepth s) s j

/-- Model of zod validation: a value passes a schema exactly when
schema.parse succeeds on it. -/
def validate (s : Schema) (j : Json) : Bool :=
  (zodParse s j).isSome

/-- AreaSchema of hermes-client.ts. -/
def AreaSchema : Schema := .object
  [("uuid", .string, false),
   ("object", .literal "area", false),
   ("primary_name", .string, false),
   ("region", .string, false),
   ("bbox_xmin", .number, false),
   ("bbox_xmax", .number, false),
   ("bbox_ymin", .number, false),
   ("bbox_ymax", .number, false),
   ("zip_code", .string, true)]

/-- BrandSchema of hermes-client.ts. -/
def BrandSchema : Schema := .object
  [("key", .string, false),
   ("name", .string, false),
   ("business_category_ids", .array .string, true),
   ("object", .literal "brand", false)]

/-- BusinessCategorySchema of hermes-client.ts. -/
def BusinessCategorySchema : Schema := .object
  [("key", .string, false),
   ("en", .string, false),
   ("path", .string, false),
   ("object", .literal "business_category", false)]

/-- LegacyAISearchResponseSchema of hermes-client.ts. -/
def LegacyAISearchResponseSchema : Schema := .object
  [("object", .literal "ai_search", false),
   ("areas", .array AreaSchema, false),
   ("geographies", .array AreaSchema, false),
   ("brands", .array BrandSchema, false),
   ("business_categories", .array BusinessCategorySchema, false)]

/-- AgenticAISearchResponseSchema of hermes-client.ts. -/
def AgenticAISearchResponseSchema : Schema := .object
  [("object", .literal "ai_search", false),
   ("query", .string, false),
   ("latitude", .number, true),
   ("longitude", .number, true),
   ("message", .string, false),
   ("error", .boolean, true)]

/-- JSON whitespace (also the whitespace the fence-stripping regexes treat
as blank). -/
def isJsonWs (c : Char) : Bool := c = ' ' || c = '\n' || c = '\t' || c = '\r'

/-- Drop leading whitespace characters. -/
def dropLeadingWs (cs : List Char) : List Char := cs.dropWhile isJsonWs

/-- Drop trailing whitespace characters. -/
def dropTrailingWs (cs : List Char) : List Char :=
  (cs.reverse.dropWhile isJsonWs).reverse

/-- Both-ends whitespace trim, as String.prototype.trim(). -/
def trimChars (cs : List Char) : List Char := dropTrailingWs (dropLeadingWs cs)

/-- The backtick character. -/
def tick : Char := Char.ofNat 96

/-- The three-backtick fence marker. -/
def fenceMarker : List Char := [tick, tick, tick]

/-- The json-annotated opening fence marker. -/
def fenceJsonMarker : List Char := [tick, tick, tick, 'j', 's', 'o', 'n']

/-- A decimal digit character. -/
def digitChar : Nat → Char
  | 0 => '0' | 1 => '1' | 2 => '2' | 3 => '3' | 4 => '4'
  | 5 => '5' | 6 => '6' | 7 => '7' | 8 => '8' | _ => '9'

/-- Numeric value of a digit character. -/
def digitVal (c : Char) : Nat := c.toNat - 48

/-- Fuel-indexed little-endian decimal digit list of a natural number. -/
def natDigitsRevF : Nat → Nat → List Nat
  | 0, _ => []
  | fuel + 1, n => if n < 10 then [n] else n % 10 :: natDigitsRevF fuel (n / 10)

/-- Little-endian decimal digit list of a natural number. -/
def natDigitsRev (n : Nat) : List Nat := natDigitsRevF (n + 1) n

/-- Decimal character representation of a natural number. -/
def natToChars (n : Nat) : List Char := ((natDigitsRev n).reverse).map digitChar

/-- Decimal character representation of an integer, as JSON.stringify on an
integral number. -/
def intToChars (n : Int) : List Char :=
  if n < 0 then '-' :: natToChars n.natAbs else natToChars n.natAbs

/-- JSON string escaping of one character (quotes and backslashes are
escaped; other characters are kept as they are). -/
def escChar (c : Char) : List Char :=
  if c = '"' || c = '\\' then ['\\', c] else [c]

/-- JSON string escaping of character lists. -/
def escChars : List Char → List Char
  | [] => []
  | c :: cs => escChar c ++ escChars cs

mutual

/-- Serialization of a JSON value, as compact JSON.stringify output. -/
def serJson : Json → List Char
  | .null => "null".toList
  | .bool true => "true".toList
  | .bool false => "false".toList
  | .num n => intToChars n
  | .str s => '"' :: (escChars s.toList ++ ['"'])
  | .arr [] => ['[', ']']
  | .arr (x :: xs) => '[' :: (serItemsList (x :: xs) ++ [']'])
  | .obj [] => ['{', '}']
  | .obj (m :: ms) => '{' :: (serMembersList (m :: ms) ++ ['}'])

/-- Comma-separated serialization of array elements. -/
def serItemsList : List Json → List Char
  | [] => []
  | [x] => serJson x
  | x :: y :: xs => serJson x ++ ',' :: serItemsList (y :: xs)

/-- Comma-separated serialization of object members. -/
def serMembersList : List (String × Json) → List Char
  | [] => []
  | [(k, v)] => '"' :: (escChars k.toList ++ '"' :: ':' :: serJson v)
  | (k, v) :: m :: ms =>
    ('"' :: (escChars k.toList ++ '"' :: ':' :: serJson v)) ++
      ',' :: serMembersList (m :: ms)

end

/-- Model of JSON.stringify. -/
def serialize (j : Json) : String := String.mk (serJson j)

/-- Parse the body of a JSON string after the opening quote; returns the
unescaped content and the remainder after the closing quote. -/
def parseStrBody : List Char → Option (List Char × List Char)
  | [] => none
  | c :: cs =>
    if c = '"' then some ([], cs)
    else if c = '\\' then
      match cs with
      | [] => none
      | e :: cs2 =>
        match parseStrBody cs2 with
        | some (body, rest) =>
          some ((if e = 'n' then '\n' else if e = 't' then '\t'
                 else if e = 'r' then '\r' else e) :: body, rest)
        | none => none
    else
      match parseStrBody cs with
      | some (body, rest) => some (c :: body, rest)
      | none => none

/-- Consume a maximal digit run, accumulating its decimal value. -/
def readDigits : List Char → Nat → Nat × List Char
  | [], acc => (acc, [])
  | c :: cs, acc =>
    if c.isDigit then readDigits cs (10 * acc + digitVal c) else (acc, c :: cs)

/-- Parse a JSON integer (optional minus sign and a nonempty digit run). -/
def parseNum : List Char → Option (Json × List Char)
  | [] => none
  | c :: cs =>
    if c = '-' then
      match cs with
      | [] => none
      | d :: _ =>
        if d.isDigit then
          match readDigits cs 0 with
          | (n, rest) => some (.num (-(n : Int)), rest)
        else none
    else if c.isDigit then
      match readDigits (c :: cs) 0 with
      | (n, rest) => some (.num (n : Int), rest)
    else none

mutual

/-- Fuel-indexed recursive-descent model of JSON.parse: one JSON value and
the unconsumed remainder. -/
def parseVal : Nat → List Char → Option (Json × List Char)
  | 0, _ => none
  | fuel + 1, cs =>
    match dropLeadingWs cs with
    | [] => none
    | c :: rest =>
      if c = 'n' then
        match rest with
        | 'u' :: 'l' :: 'l' :: r => some (.null, r)
        | _ => none
      else if c = 't' then
        match rest with
        | 'r' :: 'u' :: 'e' :: r => some (.bool true, r)
        | _ => none
      else if c = 'f' then
        match rest with
        | 'a' :: 'l' :: 's' :: 'e' :: r => some (.bool false, r)
        | _ => none
      else if c = '"' then
        match parseStrBody rest with
        | some (body, r) => some (.str (String.mk body), r)
        | none => none
      else if c = '[' then
        match dropLeadingWs rest with
        | ']' :: r => some (.arr [], r)
        | cs2 =>
          match parseItems fuel cs2 with
          | some (xs, r) => some (.arr xs, r)
          | none => none
      else if c = '{' then
        match dropLeadingWs rest with
        | '}' :: r => some (.obj [], r)
        | cs2 =>
          match parseMembers fuel cs2 with
          | some (ms, r) => some (.obj ms, r)
          | none => none
      else parseNum (c :: rest)

/-- Parse a nonempty comma-separated element list and its closing bracket. -/
def parseItems : Nat → List Char → Option (List Json × List Char)
  | 0, _ => none
  | fuel + 1, cs =>
    match parseVal fuel cs with
    | none => none
    | some (v, r) =>
      match dropLeadingWs r with
      | ',' :: r2 =>
        match parseItems fuel r2 with
        | some (vs, r3) => some (v :: vs, r3)
        | none => none
      | ']' :: r2 => some ([v], r2)
      | _ => none

/-- Parse a nonempty comma-separated member list and its closing brace. -/
def parseMembers : Nat → List Char → Option (List (String × Json) × List Char)
  | 0, _ => none
  | fuel + 1, cs =>
    match dropLeadingWs cs with
    | '"' :: r =>
      match parseStrBody r with
      | none => none
      | some (key, r1) =>
        match dropLeadingWs r1 with
        | ':' :: r2 =>
          match parseVal fuel r2 with
          | none => none
          | some (v, r3) =>
            match dropLeadingWs r3 with
            | ',' :: r4 =>
              match parseMembers fuel r4 with
              | some (ms, r5) => some ((String.mk key, v) :: ms, r5)
              | none => none
            | '}' :: r4 => some ([(String.mk key, v)], r4)
            | _ => none
        | _ => none
    | _ => none

end

/-- Model of JSON.parse: parse one JSON value; only trailing whitespace may
remain. -/
def parseJson (s : String) : Option Json :=
  match parseVal (s.toList.length + 1) s.toList with
  | some (j, rest) => if dropLeadingWs rest = [] then some j else none
  | none => none

/-- The single error shape of the extraction tail: both JSON.parse failures
and zod validation failures are caught by one catch block and rethrown as
an Error whose message embeds the raw response text. -/
inductive ExtractError where
  | invalidJsonResponse (raw : String) : ExtractError
  deriving Repr, DecidableEq

/-- Extraction tail of HermesClient.searchWithStructuredOutput in the
fallback-mode revision of hermes-client.ts: the response text defaults to
"\x7b\x7d" when empty, is given to JSON.parse as is (no fence stripping), and the
parsed value is returned through responseSchema.parse; any failure becomes
the invalid-JSON error carrying the response text. -/
def searchWithStructuredOutputExtract (text : String) (responseSchema : Schema) :
    Except ExtractError Json :=
  let responseText := if text = "" then "{}" else text
  match parseJson responseText with
  | none => .error (.invalidJsonResponse responseText)
  | some parsed =>
    match zodParse responseSchema parsed with
    | some v => .ok v
    | none => .error (.invalidJsonResponse responseText)

/-- Drop one trailing code-fence marker and the whitespace run before it,
as the replace of a whitespace-then-three-backticks-at-end regex with the
empty string. -/
def dropClosingFence (cs : List Char) : List Char :=
  if fenceMarker.isSuffixOf cs then dropTrailingWs (cs.take (cs.length - 3))
  else cs

/-- Fence stripping of the earlier hermes-client.ts revision: trim, then
if the text starts with a json-annotated fence marker drop that marker and
following whitespace, else likewise for a bare fence marker; in both fence
cases also drop the closing marker line. -/
def stripFenceChars (cs : List Char) : List Char :=
  let t := trimChars cs
  if fenceJsonMarker.isPrefixOf t then
    dropClosingFence (dropLeadingWs (t.drop 7))
  else if fenceMarker.isPrefixOf t then
    dropClosingFence (dropLeadingWs (t.drop 3))
  else t

/-- Extraction tail of HermesClient.searchWithStructuredOutput in the
earlier revision of hermes-client.ts: the response text defaults to
"\x7b\x7d" when empty, markdown code fences are stripped, the result is
given to JSON.parse and then to responseSchema.parse; any failure becomes
the invalid-JSON error carrying the (unstripped) response text. -/
def searchWithStructuredOutputExtractV3 (text : String) (responseSchema : Schema) :
    Except ExtractError Json :=
  let responseText := if text = "" then "{}" else text
  let jsonText := String.mk (stripFenceChars responseText.toList)
  match parseJson jsonText with
  | none => .error (.invalidJsonResponse responseText)
  | some parsed =>
    match zodParse responseSchema parsed with
    | some v => .ok v
    | none => .error (.invalidJsonResponse responseText)

/-- Connection mode of the specification: CONNECTED or DEGRADED. -/
inductive ConnectionMode where
  | connected : ConnectionMode
  | degraded : ConnectionMode
  deriving Repr, DecidableEq

/-- Mutable state of a HermesClient instance: the MCP client handle
(mcpClient, null or a live session handle modelled as a number) and the
fallbackMode flag (initially false). -/
structure ClientState where
  mcpClient : Option Nat
  fallbackMode : Bool
  deriving Repr, DecidableEq

/-- State of a freshly constructed HermesClient. -/
def initialClientState : ClientState := { mcpClient := none, fallbackMode := false }

/-- The connection mode a client state realizes: DEGRADED exactly when the
fallbackMode flag is set. -/
def currentMode (s : ClientState) : ConnectionMode :=
  if s.fallbackMode then .degraded else .connected

/-- Events that touch the connection state of a HermesClient: a connect()
call whose createMCPClient either yields a handle or throws, a
disconnect() call, and the onFinish close of searchWithStreaming. -/
inductive ClientEvent where
  | connectAttempt (outcome : Except String Nat) : ClientEvent
  | disconnectCall : ClientEvent
  | streamFinished : ClientEvent
  deriving Repr

/-- One step of the HermesClient connection state machine, following the
fallback-mode revision of hermes-client.ts: a successful connect stores the
handle (and leaves fallbackMode untouched); a failed connect only sets
fallbackMode (the catch block never touches mcpClient and never rethrows);
disconnect clears the handle; the streaming onFinish closes the handle only
outside fallback mode. -/
def stepClient (s : ClientState) : ClientEvent → ClientState
  | .connectAttempt (.ok h) => { s with mcpClient := some h }
  | .connectAttempt (.error _) => { s with fallbackMode := true }
  | .disconnectCall => { s with mcpClient := none }
  | .streamFinished =>
    if !s.fallbackMode && s.mcpClient.isSome then { s with mcpClient := none } else s

/-- HermesClient.connect modelled as a total state transformer (the source
wraps the whole body in try/catch, so no exception escapes); the outcome
argument is the result the MCP transport produces for this attempt. -/
def connectClient (s : ClientState) (outcome : Except String Nat) : ClientState :=
  stepClient s (.connectAttempt outcome)

/-- Tool set a search-style method passes to generateText: the advertised
tools when the client is not in fallback mode and holds a handle, else the
empty tool set (the methods start from an empty tools object). -/
def toolsForSearch (s : ClientState) (advertised : List String) : List String :=
  if !s.fallbackMode && s.mcpClient.isSome then advertised else []

/-- Run a sequence of connection events from a client state. -/
def runClient (s : ClientState) (events : List ClientEvent) : ClientState :=
  events.foldl stepClient s

/-- Message roles used by the search methods. -/
inductive Role where
  | system : Role
  | user : Role
  deriving Repr, DecidableEq

/-- One chat message: a role and its content. -/
structure ChatMessage where
  role : Role
  content : String
  deriving Repr, DecidableEq

/-- System message of searchWithStructuredOutput in fallback (degraded)
mode, verbatim from hermes-client.ts. -/
def fallbackStructuredSystemMessage : String :=
  "You are a helpful assistant. Answer questions using your knowledge base. You must respond with valid JSON that matches the provided schema."

/-- System message of searchWithStructuredOutput in connected mode,
verbatim from hermes-client.ts. -/
def toolStructuredSystemMessage : String :=
  "You are a helpful search assistant powered by the Hermes search engine. Use the available MCP tools when possible to search for information and provide comprehensive answers. You must respond with valid JSON that matches the provided schema."

/-- The system message searchWithStructuredOutput selects from the
fallbackMode flag. -/
def structuredSystemMessage (fallbackMode : Bool) : String :=
  if fallbackMode then fallbackStructuredSystemMessage else toolStructuredSystemMessage

/-- The messages array searchWithStructuredOutput passes to generateText:
the mode-selected system message first, then the user query. -/
def structuredMessages (fallbackMode : Bool) (query : String) : List ChatMessage :=
  [{ role := .system, content := structuredSystemMessage fallbackMode },
   { role := .user, content := query }]

/-- Substring test on character lists. -/
def containsSubstrChars (hay pat : List Char) : Bool :=
  pat.isPrefixOf hay ||
    match hay with
    | [] => false
    | _ :: t => containsSubstrChars t pat

/-- Substring test on strings. -/
def containsSubstr (s pat : String) : Bool :=
  containsSubstrChars s.toList pat.toList

/-- Modelled from the spec: one reply of the generative service within the
multi-step loop (the loop itself lives in the external ai package and is
not part of the repository sources): the text of the step and whether the
service requests another tool round. -/
structure GenStep where
  text : String
  wantsTool : Bool
  deriving Repr, DecidableEq

/-- Modelled from the spec: the bounded multi-step loop of generateText.
Each round invokes the service once; when the service requests a tool call
and budget remains the loop executes the tools and re-invokes the service,
else the round text is final.  Arguments: remaining budget, number of
rounds already performed, last available text. -/
def runRounds (service : Nat → GenStep) : Nat → Nat → String → Nat × String
  | 0, invoked, lastText => (invoked, lastText)
  | budget + 1, invoked, _lastText =>
    let r := service invoked
    if r.wantsTool then runRounds service budget (invoked + 1) r.text
    else (invoked + 1, r.text)

/-- Modelled from the spec: a full generateText run with a step budget;
returns the number of service rounds performed and the final text. -/
def generateTextRun (service : Nat → GenStep) (maxSteps : Nat) : Nat × String :=
  runRounds service maxSteps 0 ""

/-- The step budget every search method of hermes-client.ts passes to
generateText (maxSteps: 5). -/
def searchMaxSteps : Nat := 5

/-- The apostrophe character. -/
def apostropheChar : Char := Char.ofNat 39

/-- The invalid-parameter message of mod.ts: quoted q, then a blank-value
complaint (both the hand-rolled guard and the zod minimum-length message
use this exact text). -/
def invalidParamsMessage : String :=
  String.mk (apostropheChar :: 'q' :: apostropheChar :: " value cannot be blank".toList)

/-- The 400 response body of mod.ts for an empty or missing query. -/
def invalidParamsBody : Json :=
  .obj [("error", .obj [("code", .str "invalid_params"),
                        ("message", .str invalidParamsMessage)])]

/-- The fixed empty-but-schema-valid payload mod.ts substitutes when the
search fails under the legacy structured schema. -/
def emptyLegacyResult : Json :=
  .obj [("object", .str "ai_search"),
        ("areas", .arr []),
        ("geographies", .arr []),
        ("brands", .arr []),
        ("business_categories", .arr [])]

/-- The zod QuerySchema of mod.ts: z.string().min(1). -/
def querySchemaAccepts (q : String) : Bool := 1 ≤ q.length

/-- The GET /atlas/v1/ai_searches route of mod.ts, as a function of the
optional q query parameter and of the outcome the orchestrated search
produces: missing or empty q is rejected with 400 before the client is
even constructed; otherwise a successful search is returned as a 200 and a
failed search is masked by a 200 with the fixed empty legacy payload. -/
def aiSearchRoute (q : Option String) (searchOutcome : Except ExtractError Json) :
    Nat × Json :=
  match q with
  | none => (400, invalidParamsBody)
  | some qs =>
    if qs = "" then (400, invalidParamsBody)
    else if querySchemaAccepts qs then
      match searchOutcome with
      | .ok r => (200, r)
      | .error _ => (200, emptyLegacyResult)
    else (400, invalidParamsBody)

/-- The fenced text of the round-trip property: a json-annotated opening
fence line, the serialized value, and a closing fence line. -/
def fencedJsonText (j : Json) : String :=
  String.mk (fenceJsonMarker ++ '\n' :: serJson j ++ '\n' :: fenceMarker)

/-- Little-endian value of a decimal digit list. -/
def digitsVal : List Nat → Nat
  | [] => 0
  | d :: ds => d + 10 * digitsVal ds

/-- The continuation does not start with a digit, so a maximal digit run
ends exactly at the boundary. -/
def noDigitHead : List Char → Prop
  | [] => True
  | c :: _ => c.isDigit = false

theorem digitChar_isDigit {d : Nat} (h : d < 10) : (digitChar d).isDigit = true := by
  interval_cases d <;> decide

theorem digitVal_digitChar {d : Nat} (h : d < 10) : digitVal (digitChar d) = d := by
  interval_cases d <;> decide

theorem digitChar_not_ws {d : Nat} (h : d < 10) : isJsonWs (digitChar d) = false := by
  interval_cases d <;> decide

theorem natDigitsRevF_stable : ∀ n f g, n < f → n < g →
    natDigitsRevF f n = natDigitsRevF g n := by
  intro n
  induction n using Nat.strong_induction_on with
  | _ n ih =>
    intro f g hf hg
    match f, g with
    | f' + 1, g' + 1 =>
      simp only [natDigitsRevF]
      by_cases h10 : n < 10
      · simp [h10]
      · have hpos : 0 < n := by omega
        have hlt : n / 10 < n := Nat.div_lt_self hpos (by omega)
        simp only [h10, if_false]
        rw [ih (n / 10) hlt f' g' (by omega) (by omega)]

theorem natDigitsRev_eq (n : Nat) :
    natDigitsRev n = if n < 10 then [n] else n % 10 :: natDigitsRev (n / 10) := by
  unfold natDigitsRev
  conv_lhs => rw [natDigitsRevF]
  by_cases h10 : n < 10
  · simp [h10]
  · have hpos : 0 < n := by omega
    have hlt : n / 10 < n := Nat.div_lt_self hpos (by omega)
    simp only [h10, if_false]
    rw [natDigitsRevF_stable (n / 10) n (n / 10 + 1) (by omega) (by omega)]

theorem natDigitsRev_ne_nil (n : Nat) : natDigitsRev n ≠ [] := by
  rw [natDigitsRev_eq]
  by_cases h10 : n < 10 <;> simp [h10]

theorem natDigitsRev_lt (n : Nat) : ∀ d ∈ natDigitsRev n, d < 10 := by
  induction n using Nat.strong_induction_on with
  | _ n ih =>
    rw [natDigitsRev_eq]
    by_cases h10 : n < 10
    · simp [h10]
    · have hpos : 0 < n := by omega
      have hlt : n / 10 < n := Nat.div_lt_self hpos (by omega)
      simp only [h10, if_false]
      intro d hd
      rcases List.mem_cons.mp hd with h | h
      · omega
      · exact ih (n / 10) hlt d h

theorem digitsVal_natDigitsRev (n : Nat) : digitsVal (natDigitsRev n) = n := by
  induction n using Nat.strong_induction_on with
  | _ n ih =>
    rw [natDigitsRev_eq]
    by_cases h10 : n < 10
    · simp [h10, digitsVal]
    · have hpos : 0 < n := by omega
      have hlt : n / 10 < n := Nat.div_lt_self hpos (by omega)
      simp only [h10, if_false, digitsVal]
      rw [ih (n / 10) hlt]
      omega

theorem readDigits_append : ∀ (ds : List Nat) (rest : List Char) (acc : Nat),
    (∀ d ∈ ds, d < 10) → noDigitHead rest →
    readDigits (ds.map digitChar ++ rest) acc =
      (ds.foldl (fun a d => 10 * a + d) acc, rest) := by
  intro ds
  induction ds with
  | nil =>
    intro rest acc _ hrest
    match rest with
    | [] => simp [readDigits]
    | c :: cs =>
      simp only [noDigitHead] at hrest
      simp [readDigits, hrest]
  | cons d ds ih =>
    intro rest acc hds hrest
    have hd : d < 10 := hds d (by simp)
    simp only [List.map_cons, List.cons_append, readDigits, digitChar_isDigit hd,
      if_pos, List.foldl_cons]
    rw [digitVal_digitChar hd]
    exact ih rest (10 * acc + d) (fun x hx => hds x (by simp [hx])) hrest

theorem foldl_reverse_digitsVal : ∀ (ds : List Nat) (acc : Nat),
    ds.reverse.foldl (fun a d => 10 * a + d) acc =
      acc * 10 ^ ds.length + digitsVal ds := by
  intro ds
  induction ds with
  | nil => intro acc; simp [digitsVal]
  | cons d ds ih =>
    intro acc
    simp only [List.reverse_cons, List.foldl_append, List.foldl_cons, List.foldl_nil,
      ih acc, digitsVal, List.length_cons]
    ring

theorem readDigits_natToChars (n : Nat) (rest : List Char) (hrest : noDigitHead rest) :
    readDigits (natToChars n ++ rest) 0 = (n, rest) := by
  unfold natToChars
  rw [readDigits_append ((natDigitsRev n).reverse) rest 0
    (fun d hd => natDigitsRev_lt n d (List.mem_reverse.mp hd)) hrest]
  rw [foldl_reverse_digitsVal]
  simp [digitsVal_natDigitsRev]

theorem natToChars_head (n : Nat) :
    ∃ d tail, natToChars n = digitChar d :: tail ∧ d < 10 := by
  unfold natToChars
  have hne : (natDigitsRev n).reverse ≠ [] := by
    simp [natDigitsRev_ne_nil n]
  match h : (natDigitsRev n).reverse with
  | [] => exact absurd h hne
  | d :: ds =>
    refine ⟨d, ds.map digitChar, by simp [h], ?_⟩
    have : d ∈ natDigitsRev n := List.mem_reverse.mp (by simp [h])
    exact natDigitsRev_lt n d this

theorem parseNum_intToChars (n : Int) (rest : List Char) (hrest : noDigitHead rest) :
    parseNum (intToChars n ++ rest) = some (.num n, rest) := by
  by_cases hneg : n < 0
  · obtain ⟨d, tail, hh, hd⟩ := natToChars_head n.natAbs
    have hcons : natToChars n.natAbs ++ rest = digitChar d :: (tail ++ rest) := by
      rw [hh]; rfl
    simp only [intToChars, if_pos hneg, List.cons_append, parseNum, if_pos rfl, hcons]
    rw [if_pos (digitChar_isDigit hd), ← hcons, readDigits_natToChars n.natAbs rest hrest]
    have he : -(n.natAbs : Int) = n := by omega
    simp only [if_true]
    show some (Json.num (-(n.natAbs : Int)), rest) = some (Json.num n, rest)
    rw [he]
  · obtain ⟨d, tail, hh, hd⟩ := natToChars_head n.natAbs
    have hdash : ¬(digitChar d = '-') := by
      intro he
      have := digitChar_isDigit hd
      rw [he] at this
      exact absurd this (by decide)
    have hcons : intToChars n ++ rest = digitChar d :: (tail ++ rest) := by
      simp only [intToChars, if_neg hneg, hh]; rfl
    rw [hcons]
    simp only [parseNum, if_neg hdash, if_pos (digitChar_isDigit hd)]
    rw [← hcons]
    simp only [intToChars, if_neg hneg]
    rw [readDigits_natToChars n.natAbs rest hrest]
    have he : (n.natAbs : Int) = n := by omega
    rw [he]

theorem parseStrBody_escChars : ∀ (s rest : List Char),
    parseStrBody (escChars s ++ '"' :: rest) = some (s, rest) := by
  intro s
  induction s with
  | nil =>
    intro rest
    show parseStrBody ([] ++ '"' :: rest) = some ([], rest)
    rw [List.nil_append, parseStrBody.eq_def]
    simp
  | cons c cs ih =>
    intro rest
    by_cases hq : c = '"'
    · subst hq
      have he : escChars ('"' :: cs) ++ '"' :: rest =
          '\\' :: '"' :: (escChars cs ++ '"' :: rest) := by
        simp [escChars, escChar]
      rw [he, parseStrBody.eq_def]
      simp only [if_neg (by decide : ¬('\\' = '"')), if_pos rfl, ih rest]
      have hu : (if ('"' : Char) = 'n' then '\n' else if '"' = 't' then '\t'
          else if '"' = 'r' then '\r' else '"') = '"' := by decide
      simp [hu]
    · by_cases hb : c = '\\'
      · subst hb
        have he : escChars ('\\' :: cs) ++ '"' :: rest =
            '\\' :: '\\' :: (escChars cs ++ '"' :: rest) := by
          simp [escChars, escChar]
        rw [he, parseStrBody.eq_def]
        simp only [if_neg (by decide : ¬('\\' = '"')), if_pos rfl, ih rest]
        have hu : (if ('\\' : Char) = 'n' then '\n' else if '\\' = 't' then '\t'
            else if '\\' = 'r' then '\r' else '\\') = '\\' := by decide
        simp [hu]
      · have he : escChars (c :: cs) ++ '"' :: rest =
            c :: (escChars cs ++ '"' :: rest) := by
          simp [escChars, escChar, hq, hb]
        rw [he, parseStrBody.eq_def]
        simp only [if_neg hq, if_neg hb, ih rest]

theorem dropLeadingWs_nil : dropLeadingWs [] = [] := rfl

theorem dropLeadingWs_cons_not_ws (c : Char) (t : List Char) (h : isJsonWs c = false) :
    dropLeadingWs (c :: t) = c :: t := by
  simp [dropLeadingWs, List.dropWhile, h]

theorem dropLeadingWs_cons_ws (c : Char) (t : List Char) (h : isJsonWs c = true) :
    dropLeadingWs (c :: t) = dropLeadingWs t := by
  simp [dropLeadingWs, List.dropWhile, h]

theorem stringMk_toList (s : String) : String.mk s.toList = s := by
  cases s
  rfl

theorem intToChars_head (n : Int) :
    ∃ c t, intToChars n = c :: t ∧ (c = '-' ∨ c.isDigit = true) := by
  by_cases hneg : n < 0
  · exact ⟨'-', natToChars n.natAbs, by simp [intToChars, hneg], Or.inl rfl⟩
  · obtain ⟨d, tail, hh, hd⟩ := natToChars_head n.natAbs
    exact ⟨digitChar d, tail, by simp [intToChars, hneg, hh], Or.inr (digitChar_isDigit hd)⟩

theorem digit_or_dash_spec {c : Char} (h : c = '-' ∨ c.isDigit = true) :
    isJsonWs c = false ∧ c ≠ 'n' ∧ c ≠ 't' ∧ c ≠ 'f' ∧ c ≠ '"' ∧ c ≠ '[' ∧ c ≠ '{' ∧
      c ≠ ']' ∧ c ≠ '}' ∧ c ≠ ',' := by
  rcases h with h | h
  · subst h
    refine ⟨by decide, ?_⟩
    refine ⟨by decide, by decide, by decide, by decide, by decide, by decide,
      by decide, by decide, by decide⟩
  · have hws : isJsonWs c = false := by
      unfold isJsonWs
      by_contra hc
      simp only [Bool.not_eq_false, Bool.or_eq_true, decide_eq_true_eq] at hc
      rcases hc with ((h1 | h1) | h1) | h1 <;> (subst h1; exact absurd h (by decide))
    refine ⟨hws, ?_, ?_, ?_, ?_, ?_, ?_, ?_, ?_, ?_⟩ <;>
      (intro he; subst he; exact absurd h (by decide))

/-- Head character of a serialized JSON value: never whitespace and never a
closing delimiter or comma. -/
theorem serJson_head_spec (j : Json) :
    ∃ c t, serJson j = c :: t ∧ isJsonWs c = false ∧ c ≠ ']' ∧ c ≠ '}' ∧ c ≠ ',' := by
  match j with
  | .null => exact ⟨'n', _, rfl, by decide, by decide, by decide, by decide⟩
  | .bool true => exact ⟨'t', _, rfl, by decide, by decide, by decide, by decide⟩
  | .bool false => exact ⟨'f', _, rfl, by decide, by decide, by decide, by decide⟩
  | .num n =>
    obtain ⟨c, t, hh, hc⟩ := intToChars_head n
    obtain ⟨hws, _, _, _, _, _, _, h1, h2, h3⟩ := digit_or_dash_spec hc
    exact ⟨c, t, by simp [serJson, hh], hws, h1, h2, h3⟩
  | .str s => exact ⟨'"', _, rfl, by decide, by decide, by decide, by decide⟩
  | .arr [] => exact ⟨'[', _, rfl, by decide, by decide, by decide, by decide⟩
  | .arr (x :: xs) => exact ⟨'[', _, rfl, by decide, by decide, by decide, by decide⟩
  | .obj [] => exact ⟨'{', _, rfl, by decide, by decide, by decide, by decide⟩
  | .obj (m :: ms) => exact ⟨'{', _, rfl, by decide, by decide, by decide, by decide⟩

theorem jsize_pos (j : Json) : 1 ≤ jsize j := by
  match j with
  | .null | .bool _ | .num _ | .str _ => simp [jsize]
  | .arr xs => simp [jsize]
  | .obj ms => simp [jsize]

theorem jsizeL_cons (x : Json) (xs : List Json) :
    jsizeL (x :: xs) = 1 + jsize x + jsizeL xs := by simp [jsizeL]

theorem jsizeM_cons (k : String) (v : Json) (ms : List (String × Json)) :
    jsizeM ((k, v) :: ms) = 1 + jsize v + jsizeM ms := by simp [jsizeM]

theorem serItemsList_cons_shape (x : Json) (xs : List Json) :
    ∃ t, serItemsList (x :: xs) = serJson x ++ t := by
  match xs with
  | [] => exact ⟨[], by simp [serItemsList]⟩
  | y :: ys => exact ⟨',' :: serItemsList (y :: ys), by simp [serItemsList]⟩

mutual

theorem jsize_le_serJson : ∀ j : Json, jsize j ≤ (serJson j).length
  | .null => by simp [jsize, serJson]
  | .bool true => by simp [jsize, serJson]
  | .bool false => by simp [jsize, serJson]
  | .num n => by
    obtain ⟨c, t, hh, _⟩ := intToChars_head n
    simp [jsize, serJson, hh]
  | .str s => by simp [jsize, serJson]
  | .arr [] => by simp [jsize, jsizeL, serJson]
  | .arr (x :: xs) => by
    have h := jsizeL_le_serItems (x :: xs) (by simp)
    simp only [jsize, serJson, List.length_cons, List.length_append, List.length_singleton]
    omega
  | .obj [] => by simp [jsize, jsizeM, serJson]
  | .obj (m :: ms) => by
    have h := jsizeM_le_serMembers (m :: ms) (by simp)
    simp only [jsize, serJson, List.length_cons, List.length_append, List.length_singleton]
    omega

theorem jsizeL_le_serItems : ∀ xs : List Json, xs ≠ [] →
    jsizeL xs ≤ (serItemsList xs).length + 1
  | [x], _ => by
    have h := jsize_le_serJson x
    simp only [jsizeL, serItemsList]
    omega
  | x :: y :: ys, _ => by
    have h1 := jsize_le_serJson x
    have h2 := jsizeL_le_serItems (y :: ys) (by simp)
    simp only [jsizeL] at h2
    simp only [jsizeL, serItemsList, List.length_append, List.length_cons]
    omega

theorem jsizeM_le_serMembers : ∀ ms : List (String × Json), ms ≠ [] →
    jsizeM ms ≤ (serMembersList ms).length + 1
  | [(k, v)], _ => by
    have h := jsize_le_serJson v
    simp only [jsizeM, serMembersList, List.length_cons, List.length_append]
    omega
  | (k, v) :: m :: ms, _ => by
    have h1 := jsize_le_serJson v
    have h2 := jsizeM_le_serMembers (m :: ms) (by simp)
    simp only [jsizeM] at h2
    simp only [jsizeM, serMembersList, List.length_cons, List.length_append]
    omega

end

theorem noDigitHead_cons (c : Char) (t : List Char) (h : c.isDigit = false) :
    noDigitHead (c :: t) := h

theorem noDigitHead_nil : noDigitHead [] := trivial

theorem serMembersList_cons (k : String) (v : Json) (m : String × Json)
    (ms : List (String × Json)) :
    serMembersList ((k, v) :: m :: ms) =
      ('"' :: (escChars k.toList ++ '"' :: ':' :: serJson v)) ++ ',' :: serMembersList (m :: ms) := by
  simp [serMembersList]

theorem parse_ser_aux : ∀ fuel : Nat,
    (∀ (j : Json) (rest : List Char), jsize j ≤ fuel → noDigitHead rest →
      parseVal fuel (serJson j ++ rest) = some (j, rest)) ∧
    (∀ (xs : List Json) (rest : List Char), xs ≠ [] → jsizeL xs ≤ fuel →
      parseItems fuel (serItemsList xs ++ ']' :: rest) = some (xs, rest)) ∧
    (∀ (ms : List (String × Json)) (rest : List Char), ms ≠ [] → jsizeM ms ≤ fuel →
      parseMembers fuel (serMembersList ms ++ '}' :: rest) = some (ms, rest)) := by
  intro fuel
  induction fuel with
  | zero =>
    refine ⟨?_, ?_, ?_⟩
    · intro j rest hsz _
      have := jsize_pos j
      omega
    · intro xs rest hne hsz
      match xs with
      | x :: xs =>
        have := jsize_pos x
        rw [jsizeL_cons] at hsz
        omega
    · intro ms rest hne hsz
      match ms with
      | (k, v) :: ms =>
        have := jsize_pos v
        rw [jsizeM_cons] at hsz
        omega
  | succ fuel ih =>
    obtain ⟨ihV, ihI, ihM⟩ := ih
    refine ⟨?_, ?_, ?_⟩
    · intro j rest hsz hrest
      match j with
      | .null =>
        show parseVal (fuel + 1) (['n', 'u', 'l', 'l'] ++ rest) = some (.null, rest)
        simp only [List.cons_append, List.nil_append]
        rw [parseVal.eq_def]
        dsimp only
        rw [dropLeadingWs_cons_not_ws 'n' _ (by decide)]
        simp
      | .bool true =>
        show parseVal (fuel + 1) (['t', 'r', 'u', 'e'] ++ rest) = some (.bool true, rest)
        simp only [List.cons_append, List.nil_append]
        rw [parseVal.eq_def]
        dsimp only
        rw [dropLeadingWs_cons_not_ws 't' _ (by decide)]
        simp
      | .bool false =>
        show parseVal (fuel + 1) (['f', 'a', 'l', 's', 'e'] ++ rest) = some (.bool false, rest)
        simp only [List.cons_append, List.nil_append]
        rw [parseVal.eq_def]
        dsimp only
        rw [dropLeadingWs_cons_not_ws 'f' _ (by decide)]
        simp
      | .num n =>
        obtain ⟨c, t, hh, hc⟩ := intToChars_head n
        obtain ⟨hws, hn, ht, hf, hq, hlb, hlc, _, _, _⟩ := digit_or_dash_spec hc
        show parseVal (fuel + 1) (intToChars n ++ rest) = some (.num n, rest)
        rw [hh, List.cons_append, parseVal.eq_def]
        dsimp only
        rw [dropLeadingWs_cons_not_ws c _ hws]
        dsimp only
        rw [if_neg hn, if_neg ht, if_neg hf, if_neg hq, if_neg hlb, if_neg hlc]
        rw [← List.cons_append, ← hh]
        exact parseNum_intToChars n rest hrest
      | .str s =>
        show parseVal (fuel + 1) (('"' :: (escChars s.toList ++ ['"'])) ++ rest) =
          some (.str s, rest)
        simp only [List.cons_append, List.append_assoc, List.singleton_append, List.nil_append]
        rw [parseVal.eq_def]
        dsimp only
        rw [dropLeadingWs_cons_not_ws '"' _ (by decide)]
        simp [parseStrBody_escChars, stringMk_toList]
      | .arr [] =>
        show parseVal (fuel + 1) (['[', ']'] ++ rest) = some (.arr [], rest)
        simp only [List.cons_append, List.nil_append]
        rw [parseVal.eq_def]
        dsimp only
        rw [dropLeadingWs_cons_not_ws '[' _ (by decide)]
        simp [dropLeadingWs_cons_not_ws ']' rest (by decide)]
      | .arr (x :: xs) =>
        show parseVal (fuel + 1) (('[' :: (serItemsList (x :: xs) ++ [']'])) ++ rest) =
          some (.arr (x :: xs), rest)
        simp only [List.cons_append, List.append_assoc, List.singleton_append, List.nil_append]
        rw [parseVal.eq_def]
        dsimp only
        rw [dropLeadingWs_cons_not_ws '[' _ (by decide)]
        dsimp only
        rw [if_neg (by decide : ¬('[' = 'n')), if_neg (by decide : ¬('[' = 't')),
          if_neg (by decide : ¬('[' = 'f')), if_neg (by decide : ¬('[' = '"')),
          if_pos (rfl : '[' = '[')]
        obtain ⟨it, hit⟩ := serItemsList_cons_shape x xs
        obtain ⟨c, t, hcx, hws, hne1, hne2, hne3⟩ := serJson_head_spec x
        have hshape : serItemsList (x :: xs) ++ ']' :: rest =
            c :: (t ++ (it ++ ']' :: rest)) := by
          rw [hit, hcx]
          simp
        rw [hshape, dropLeadingWs_cons_not_ws c _ hws]
        have hI := ihI (x :: xs) rest (by simp) (by
          simp only [jsize] at hsz
          omega)
        rw [← hshape]
        split
        · rename_i r heq
          rw [hshape] at heq
          exact absurd (List.cons.injEq .. ▸ heq).1 hne1
        · rw [hI]
      | .obj [] =>
        show parseVal (fuel + 1) (['{', '}'] ++ rest) = some (.obj [], rest)
        simp only [List.cons_append, List.nil_append]
        rw [parseVal.eq_def]
        dsimp only
        rw [dropLeadingWs_cons_not_ws '{' _ (by decide)]
        simp [dropLeadingWs_cons_not_ws '}' rest (by decide)]
      | .obj (m :: ms) =>
        show parseVal (fuel + 1) (('{' :: (serMembersList (m :: ms) ++ ['}'])) ++ rest) =
          some (.obj (m :: ms), rest)
        simp only [List.cons_append, List.append_assoc, List.singleton_append, List.nil_append]
        rw [parseVal.eq_def]
        dsimp only
        rw [dropLeadingWs_cons_not_ws '{' _ (by decide)]
        dsimp only
        rw [if_neg (by decide : ¬('{' = 'n')), if_neg (by decide : ¬('{' = 't')),
          if_neg (by decide : ¬('{' = 'f')), if_neg (by decide : ¬('{' = '"')),
          if_neg (by decide : ¬('{' = '[')), if_pos (rfl : '{' = '{')]
        obtain ⟨k, v⟩ := m
        obtain ⟨mt, hmt⟩ : ∃ t, serMembersList ((k, v) :: ms) =
            '"' :: (escChars k.toList ++ '"' :: ':' :: serJson v) ++ t := by
          match ms with
          | [] => exact ⟨[], by simp [serMembersList]⟩
          | m2 :: ms2 => exact ⟨',' :: serMembersList (m2 :: ms2), by
              simp [serMembersList_cons]⟩
        have hshape : serMembersList ((k, v) :: ms) ++ '}' :: rest =
            '"' :: ((escChars k.toList ++ '"' :: ':' :: serJson v) ++ (mt ++ '}' :: rest)) := by
          rw [hmt]
          simp
        rw [hshape, dropLeadingWs_cons_not_ws '"' _ (by decide)]
        have hM := ihM ((k, v) :: ms) rest (by simp) (by
          simp only [jsize] at hsz
          omega)
        rw [← hshape]
        split
        · rename_i r heq
          rw [hshape] at heq
          exact absurd (List.cons.injEq .. ▸ heq).1 (by decide)
        · rw [hM]
    · intro xs rest hne hsz
      match xs with
      | [x] =>
        show parseItems (fuel + 1) (serJson x ++ ']' :: rest) = some ([x], rest)
        rw [parseItems.eq_def]
        dsimp only
        rw [ihV x (']' :: rest) (by rw [jsizeL_cons] at hsz; omega)
          (noDigitHead_cons ']' rest (by decide))]
        dsimp only
        rw [dropLeadingWs_cons_not_ws ']' _ (by decide)]
        rfl
      | x :: y :: ys =>
        show parseItems (fuel + 1)
          ((serJson x ++ ',' :: serItemsList (y :: ys)) ++ ']' :: rest) =
          some (x :: y :: ys, rest)
        simp only [List.append_assoc, List.cons_append, List.nil_append]
        rw [parseItems.eq_def]
        dsimp only
        rw [ihV x (',' :: (serItemsList (y :: ys) ++ ']' :: rest))
          (by rw [jsizeL_cons] at hsz; omega)
          (noDigitHead_cons ',' _ (by decide))]
        dsimp only
        rw [dropLeadingWs_cons_not_ws ',' _ (by decide)]
        simp only [ihI (y :: ys) rest (by simp) (by rw [jsizeL_cons] at hsz; omega)]
    · intro ms rest hne hsz
      match ms with
      | [(k, v)] =>
        show parseMembers (fuel + 1)
          (('"' :: (escChars k.toList ++ '"' :: ':' :: serJson v)) ++ '}' :: rest) =
          some ([(k, v)], rest)
        simp only [List.cons_append, List.append_assoc]
        rw [parseMembers.eq_def]
        dsimp only
        rw [dropLeadingWs_cons_not_ws '"' _ (by decide)]
        simp only [parseStrBody_escChars k.toList (':' :: (serJson v ++ '}' :: rest))]
        rw [dropLeadingWs_cons_not_ws ':' _ (by decide)]
        simp only [ihV v ('}' :: rest) (by rw [jsizeM_cons] at hsz; omega)
          (noDigitHead_cons '}' rest (by decide))]
        rw [dropLeadingWs_cons_not_ws '}' _ (by decide)]
        simp [stringMk_toList]
      | (k, v) :: m2 :: ms2 =>
        show parseMembers (fuel + 1)
          ((('"' :: (escChars k.toList ++ '"' :: ':' :: serJson v)) ++
            ',' :: serMembersList (m2 :: ms2)) ++ '}' :: rest) =
          some ((k, v) :: m2 :: ms2, rest)
        simp only [List.cons_append, List.append_assoc]
        rw [parseMembers.eq_def]
        dsimp only
        rw [dropLeadingWs_cons_not_ws '"' _ (by decide)]
        simp only [parseStrBody_escChars k.toList
          (':' :: (serJson v ++ ',' :: (serMembersList (m2 :: ms2) ++ '}' :: rest)))]
        rw [dropLeadingWs_cons_not_ws ':' _ (by decide)]
        simp only [ihV v (',' :: (serMembersList (m2 :: ms2) ++ '}' :: rest))
          (by rw [jsizeM_cons] at hsz; omega)
          (noDigitHead_cons ',' _ (by decide))]
        rw [dropLeadingWs_cons_not_ws ',' _ (by decide)]
        simp only [ihM (m2 :: ms2) rest (by simp) (by rw [jsizeM_cons] at hsz; omega)]
        simp [stringMk_toList]

theorem parseJson_serialize (j : Json) : parseJson (serialize j) = some j := by
  unfold parseJson serialize
  have hlist : (String.mk (serJson j)).toList = serJson j := rfl
  rw [hlist]
  have h := (parse_ser_aux ((serJson j).length + 1)).1 j []
    (le_trans (jsize_le_serJson j) (by omega)) trivial
  rw [List.append_nil] at h
  rw [h]
  simp [dropLeadingWs_nil]

theorem natToChars_reverse_head (n : Nat) :
    ∃ d t, (natToChars n).reverse = digitChar d :: t ∧ d < 10 := by
  unfold natToChars
  rw [← List.map_reverse, List.reverse_reverse]
  match h : natDigitsRev n with
  | [] => exact absurd h (natDigitsRev_ne_nil n)
  | d :: ds =>
    refine ⟨d, ds.map digitChar, by simp, ?_⟩
    exact natDigitsRev_lt n d (by simp [h])

theorem serJson_reverse_head (j : Json) :
    ∃ c t, (serJson j).reverse = c :: t ∧ isJsonWs c = false := by
  match j with
  | .null => exact ⟨'l', _, rfl, by decide⟩
  | .bool true => exact ⟨'e', _, rfl, by decide⟩
  | .bool false => exact ⟨'e', _, rfl, by decide⟩
  | .num n =>
    show ∃ c t, (intToChars n).reverse = c :: t ∧ isJsonWs c = false
    obtain ⟨d, t, hh, hd⟩ := natToChars_reverse_head n.natAbs
    by_cases hneg : n < 0
    · refine ⟨digitChar d, t ++ ['-'], ?_, digitChar_not_ws hd⟩
      simp [intToChars, hneg, hh]
    · refine ⟨digitChar d, t, ?_, digitChar_not_ws hd⟩
      simp [intToChars, hneg, hh]
  | .str s =>
    refine ⟨'"', (escChars s.toList).reverse ++ ['"'], ?_, by decide⟩
    show ('"' :: (escChars s.toList ++ ['"'])).reverse = _
    simp
  | .arr [] => exact ⟨']', _, rfl, by decide⟩
  | .arr (x :: xs) =>
    refine ⟨']', (serItemsList (x :: xs)).reverse ++ ['['], ?_, by decide⟩
    show ('[' :: (serItemsList (x :: xs) ++ [']'])).reverse = _
    simp
  | .obj [] => exact ⟨'}', _, rfl, by decide⟩
  | .obj (m :: ms) =>
    refine ⟨'}', (serMembersList (m :: ms)).reverse ++ ['{'], ?_, by decide⟩
    show ('{' :: (serMembersList (m :: ms) ++ ['}'])).reverse = _
    simp

theorem dropTrailingWs_of_rev_head (cs : List Char) (c : Char) (t : List Char)
    (hrev : cs.reverse = c :: t) (h : isJsonWs c = false) :
    dropTrailingWs cs = cs := by
  unfold dropTrailingWs
  rw [hrev]
  rw [List.dropWhile_cons_of_neg (by simp [h])]
  rw [← hrev, List.reverse_reverse]

theorem stripFenceChars_fenced (j : Json) :
    stripFenceChars (fenceJsonMarker ++ '\n' :: serJson j ++ '\n' :: fenceMarker) =
      serJson j := by
  obtain ⟨hc, ht, hser, hws⟩ :
      ∃ hc ht, serJson j = hc :: ht ∧ isJsonWs hc = false := by
    obtain ⟨c, t, h1, h2, _, _, _⟩ := serJson_head_spec j
    exact ⟨c, t, h1, h2⟩
  obtain ⟨rc, rt, hrev, hrws⟩ := serJson_reverse_head j
  have htrim : trimChars (fenceJsonMarker ++ '\n' :: serJson j ++ '\n' :: fenceMarker) =
      fenceJsonMarker ++ '\n' :: serJson j ++ '\n' :: fenceMarker := by
    unfold trimChars
    have h1 : dropLeadingWs (fenceJsonMarker ++ '\n' :: serJson j ++ '\n' :: fenceMarker) =
        fenceJsonMarker ++ '\n' :: serJson j ++ '\n' :: fenceMarker := by
      show dropLeadingWs (tick :: ([tick, tick, 'j', 's', 'o', 'n'] ++
        '\n' :: serJson j ++ '\n' :: fenceMarker)) = _
      rw [dropLeadingWs_cons_not_ws tick _ (by decide)]
      rfl
    rw [h1]
    apply dropTrailingWs_of_rev_head _ tick
      (('\n' :: serJson j ++ ['\n', tick, tick]).reverse ++ fenceJsonMarker.reverse)
    · show (fenceJsonMarker ++ ('\n' :: serJson j ++ '\n' :: [tick, tick, tick])).reverse = _
      rw [List.reverse_append]
      simp
    · decide
  unfold stripFenceChars
  rw [htrim]
  rw [if_pos (by
    simp only [List.isPrefixOf_iff_prefix, List.append_assoc]
    exact List.prefix_append _ _)]
  have hdrop : (fenceJsonMarker ++ '\n' :: serJson j ++ '\n' :: fenceMarker).drop 7 =
      '\n' :: serJson j ++ '\n' :: fenceMarker := rfl
  rw [hdrop]
  have hlead : dropLeadingWs ('\n' :: serJson j ++ '\n' :: fenceMarker) =
      serJson j ++ '\n' :: fenceMarker := by
    rw [List.cons_append, dropLeadingWs_cons_ws _ _ (by decide)]
    rw [hser, List.cons_append, dropLeadingWs_cons_not_ws hc _ hws, ← List.cons_append, ← hser]
  rw [hlead]
  unfold dropClosingFence
  rw [if_pos (by
    simp only [List.isSuffixOf_iff_suffix]
    rw [show serJson j ++ '\n' :: fenceMarker = (serJson j ++ ['\n']) ++ fenceMarker by simp]
    exact List.suffix_append _ _)]
  have hlen : (serJson j ++ '\n' :: fenceMarker).length - 3 = (serJson j ++ ['\n']).length := by
    simp [fenceMarker]
  rw [hlen]
  have htake : (serJson j ++ '\n' :: fenceMarker).take ((serJson j ++ ['\n']).length) =
      serJson j ++ ['\n'] := by
    rw [show serJson j ++ '\n' :: fenceMarker = (serJson j ++ ['\n']) ++ fenceMarker by simp]
    exact List.take_left _ _
  rw [htake]
  have happ : dropTrailingWs (serJson j ++ ['\n']) = dropTrailingWs (serJson j) := by
    unfold dropTrailingWs
    rw [List.reverse_append]
    show ((List.dropWhile isJsonWs (['\n'] ++ (serJson j).reverse))).reverse = _
    rw [List.singleton_append, List.dropWhile_cons_of_pos (by decide)]
  rw [happ]
  exact dropTrailingWs_of_rev_head _ rc rt hrev hrws

theorem lookupMember_head (n : String) (w : Json) (out : List (String × Json)) :
    lookupMember n ((n, w) :: out) = some w := by
  simp [lookupMember]

theorem lookupMember_skip {k n : String} (hk : k ≠ n) (w : Json)
    (ms : List (String × Json)) :
    lookupMember n ((k, w) :: ms) = lookupMember n ms := by
  simp [lookupMember, hk]

theorem lookupMember_eq_none {n : String} :
    ∀ {ms : List (String × Json)}, (∀ p ∈ ms, ¬(p.1 = n)) → lookupMember n ms = none := by
  intro ms
  induction ms with
  | nil => intro _; rfl
  | cons kv rest ih =>
    intro h
    obtain ⟨k, w⟩ := kv
    have hk : ¬(k = n) := h (k, w) (by simp)
    rw [lookupMember_skip hk]
    exact ih (fun p hp => h p (by simp [hp]))

theorem zodFieldsGo_congr (p : Schema → Json → Option Json) :
    ∀ (fs : List (String × Schema × Bool)) (ms₁ ms₂ : List (String × Json)),
      (∀ q ∈ fs, lookupMember q.1 ms₁ = lookupMember q.1 ms₂) →
      zodFieldsGo p fs ms₁ = zodFieldsGo p fs ms₂ := by
  intro fs
  induction fs with
  | nil => intro ms₁ ms₂ _; rfl
  | cons q rest ih =>
    intro ms₁ ms₂ h
    obtain ⟨n, fs_, opt⟩ := q
    have hn : lookupMember n ms₁ = lookupMember n ms₂ := h (n, fs_, opt) (by simp)
    show (match lookupMember n ms₁ with
      | some v =>
        match p fs_ v, zodFieldsGo p rest ms₁ with
        | some w, some out => some ((n, w) :: out)
        | _, _ => none
      | none => if opt then zodFieldsGo p rest ms₁ else none) = _
    rw [hn, ih ms₁ ms₂ (fun q hq => h q (by simp [hq]))]
    rfl

theorem zodFieldsGo_names (p : Schema → Json → Option Json) :
    ∀ (fs : List (String × Schema × Bool)) (ms : List (String × Json))
      (out : List (String × Json)), zodFieldsGo p fs ms = some out →
      ∀ q ∈ out, q.1 ∈ fs.map (fun f => f.1) := by
  intro fs
  induction fs with
  | nil =>
    intro ms out h q hq
    simp only [zodFieldsGo] at h
    injection h with h
    subst h
    simp at hq
  | cons f rest ih =>
    intro ms out h q hq
    obtain ⟨n, fs_, opt⟩ := f
    simp only [zodFieldsGo] at h
    match hlk : lookupMember n ms with
    | some v =>
      rw [hlk] at h
      dsimp only at h
      match hw : p fs_ v, hrest : zodFieldsGo p rest ms with
      | some w, some outRest =>
        rw [hw, hrest] at h
        injection h with h
        subst h
        rcases List.mem_cons.mp hq with h1 | h1
        · subst h1
          simp
        · have := ih ms outRest hrest q h1
          simp only [List.map_cons, List.mem_cons]
          right
          exact this
      | some w, none => rw [hw, hrest] at h; exact Option.noConfusion h
      | none, _ => rw [hw] at h; exact Option.noConfusion h
    | none =>
      rw [hlk] at h
      dsimp only at h
      by_cases hopt : opt
      · rw [if_pos hopt] at h
        have := ih ms out h q hq
        simp only [List.map_cons, List.mem_cons]
        right
        exact this
      · rw [if_neg hopt] at h
        exact Option.noConfusion h

theorem nodupNames_cons {n : String} {ns : List String}
    (h : nodupNames (n :: ns) = true) :
    ns.contains n = false ∧ nodupNames ns = true := by
  simp only [nodupNames, Bool.and_eq_true, Bool.not_eq_true'] at h
  exact h

theorem zodElemsGo_fix (p : Json → Option Json)
    (hp : ∀ j w, p j = some w → p w = some w) :
    ∀ (xs ws : List Json), zodElemsGo p xs = some ws → zodElemsGo p ws = some ws := by
  intro xs
  induction xs with
  | nil =>
    intro ws h
    simp only [zodElemsGo] at h
    injection h with h
    subst h
    rfl
  | cons x xs ih =>
    intro ws h
    simp only [zodElemsGo] at h
    match hy : p x, hys : zodElemsGo p xs with
    | some y, some ys =>
      rw [hy, hys] at h
      injection h with h
      subst h
      show zodElemsGo p (y :: ys) = some (y :: ys)
      simp only [zodElemsGo]
      rw [hp x y hy, ih ys hys]
    | some y, none => rw [hy, hys] at h; exact Option.noConfusion h
    | none, _ => rw [hy] at h; exact Option.noConfusion h

theorem zodFieldsGo_fix (p : Schema → Json → Option Json)
    (hp : ∀ s j w, wfSchema s = true → p s j = some w → p s w = some w) :
    ∀ (fs : List (String × Schema × Bool)) (ms out : List (String × Json)),
      nodupNames (fs.map (fun f => f.1)) = true → wfFields fs = true →
      zodFieldsGo p fs ms = some out → zodFieldsGo p fs out = some out := by
  intro fs
  induction fs with
  | nil =>
    intro ms out _ _ h
    simp only [zodFieldsGo] at h
    injection h with h
    subst h
    rfl
  | cons f rest ih =>
    intro ms out hnd hwf h
    obtain ⟨n, fs_, opt⟩ := f
    obtain ⟨hcontains, hndrest⟩ := nodupNames_cons (by simpa using hnd)
    have hnotmem : n ∉ List.map (fun f => f.1) rest := by simpa using hcontains
    have hrestne : ∀ q ∈ rest, ¬(q.1 = n) := by
      intro q hq he
      exact hnotmem (by rw [← he]; exact List.mem_map_of_mem _ hq)
    obtain ⟨hwf1, hwf2⟩ : wfSchema fs_ = true ∧ wfFields rest = true := by
      simpa [wfFields, Bool.and_eq_true] using hwf
    simp only [zodFieldsGo] at h
    match hlk : lookupMember n ms with
    | some v =>
      rw [hlk] at h
      dsimp only at h
      match hw : p fs_ v, hrest : zodFieldsGo p rest ms with
      | some w, some outRest =>
        rw [hw, hrest] at h
        injection h with h
        subst h
        show zodFieldsGo p ((n, fs_, opt) :: rest) ((n, w) :: outRest) = _
        simp only [zodFieldsGo]
        rw [lookupMember_head]
        dsimp only
        rw [hp fs_ v w hwf1 hw]
        have hcongr : zodFieldsGo p rest ((n, w) :: outRest) = zodFieldsGo p rest outRest := by
          apply zodFieldsGo_congr
          intro q hq
          exact lookupMember_skip (fun he => hrestne q hq he.symm) w outRest
        rw [hcongr, ih ms outRest hndrest hwf2 hrest]
      | some w, none => rw [hw, hrest] at h; exact Option.noConfusion h
      | none, _ => rw [hw] at h; exact Option.noConfusion h
    | none =>
      rw [hlk] at h
      dsimp only at h
      by_cases hopt : opt
      · rw [if_pos hopt] at h
        show zodFieldsGo p ((n, fs_, opt) :: rest) out = some out
        simp only [zodFieldsGo]
        have hnotmem : n ∉ List.map (fun f => f.1) rest := by simpa using hcontains
        have hnone : lookupMember n out = none := by
          apply lookupMember_eq_none
          intro q hq he
          have := zodFieldsGo_names p rest ms out h q hq
          rw [he] at this
          exact hnotmem this
        rw [hnone]
        dsimp only
        rw [if_pos hopt]
        exact ih ms out hndrest hwf2 h
      · rw [if_neg hopt] at h
        exact Option.noConfusion h

theorem zodParseF_fix : ∀ (fuel : Nat) (s : Schema) (j w : Json),
    wfSchema s = true → zodParseF fuel s j = some w → zodParseF fuel s w = some w := by
  intro fuel
  induction fuel with
  | zero =>
    intro s j w _ h
    exact Option.noConfusion h
  | succ fuel ih =>
    intro s j w hwf h
    match s, j with
    | .string, .str t =>
      have : w = .str t := by
        have : some (Json.str t) = some w := h
        injection this with h2
        exact h2.symm
      subst this
      exact h
    | .number, .num n =>
      have : w = .num n := by
        have : some (Json.num n) = some w := h
        injection this with h2
        exact h2.symm
      subst this
      exact h
    | .boolean, .bool b =>
      have : w = .bool b := by
        have : some (Json.bool b) = some w := h
        injection this with h2
        exact h2.symm
      subst this
      exact h
    | .literal v, .str t =>
      have hh : (if t = v then some (Json.str t) else none) = some w := h
      by_cases htv : t = v
      · rw [if_pos htv] at hh
        injection hh with h2
        subst h2
        show (if t = v then some (Json.str t) else none) = some (Json.str t)
        rw [if_pos htv]
      · rw [if_neg htv] at hh
        exact Option.noConfusion hh
    | .array e, .arr xs =>
      have hwfe : wfSchema e = true := by simpa [wfSchema] using hwf
      have hh : (match zodElemsGo (zodParseF fuel e) xs with
        | some ys => some (Json.arr ys)
        | none => none) = some w := h
      match hys : zodElemsGo (zodParseF fuel e) xs with
      | some ys =>
        rw [hys] at hh
        injection hh with h2
        subst h2
        show (match zodElemsGo (zodParseF fuel e) ys with
          | some ys => some (Json.arr ys)
          | none => none) = some (Json.arr ys)
        rw [zodElemsGo_fix (zodParseF fuel e) (fun j w => ih e j w hwfe) xs ys hys]
      | none => rw [hys] at hh; exact Option.noConfusion hh
    | .object fields, .obj ms =>
      obtain ⟨hnd, hwff⟩ : nodupNames (fields.map (fun f => f.1)) = true ∧
          wfFields fields = true := by
        simpa [wfSchema, Bool.and_eq_true] using hwf
      have hh : (match zodFieldsGo (zodParseF fuel) fields ms with
        | some out => some (Json.obj out)
        | none => none) = some w := h
      match hout : zodFieldsGo (zodParseF fuel) fields ms with
      | some out =>
        rw [hout] at hh
        injection hh with h2
        subst h2
        show (match zodFieldsGo (zodParseF fuel) fields out with
          | some out => some (Json.obj out)
          | none => none) = some (Json.obj out)
        rw [zodFieldsGo_fix (zodParseF fuel) ih fields ms out hnd hwff hout]
      | none => rw [hout] at hh; exact Option.noConfusion hh
    | .string, .null => exact Option.noConfusion h
    | .string, .bool _ => exact Option.noConfusion h
    | .string, .num _ => exact Option.noConfusion h
    | .string, .arr _ => exact Option.noConfusion h
    | .string, .obj _ => exact Option.noConfusion h
    | .number, .null => exact Option.noConfusion h
    | .number, .bool _ => exact Option.noConfusion h
    | .number, .str _ => exact Option.noConfusion h
    | .number, .arr _ => exact Option.noConfusion h
    | .number, .obj _ => exact Option.noConfusion h
    | .boolean, .null => exact Option.noConfusion h
    | .boolean, .num _ => exact Option.noConfusion h
    | .boolean, .str _ => exact Option.noConfusion h
    | .boolean, .arr _ => exact Option.noConfusion h
    | .boolean, .obj _ => exact Option.noConfusion h
    | .literal _, .null => exact Option.noConfusion h
    | .literal _, .bool _ => exact Option.noConfusion h
    | .literal _, .num _ => exact Option.noConfusion h
    | .literal _, .arr _ => exact Option.noConfusion h
    | .literal _, .obj _ => exact Option.noConfusion h
    | .array _, .null => exact Option.noConfusion h
    | .array _, .bool _ => exact Option.noConfusion h
    | .array _, .num _ => exact Option.noConfusion h
    | .array _, .str _ => exact Option.noConfusion h
    | .array _, .obj _ => exact Option.noConfusion h
    | .object _, .null => exact Option.noConfusion h
    | .object _, .bool _ => exact Option.noConfusion h
    | .object _, .num _ => exact Option.noConfusion h
    | .object _, .str _ => exact Option.noConfusion h
    | .object _, .arr _ => exact Option.noConfusion h

theorem zodParse_output_validates (s : Schema) (j v : Json)
    (hwf : wfSchema s = true) (h : zodParse s j = some v) : validate s v = true := by
  unfold validate zodParse
  unfold zodParse at h
  rw [zodParseF_fix (sdepth s) s j v hwf h]
  rfl

theorem runRounds_always_tool (service : Nat → GenStep)
    (h : ∀ i, (service i).wantsTool = true) :
    ∀ (b k : Nat) (t : String), runRounds service b k t =
      (k + b, if b = 0 then t else (service (k + b - 1)).text) := by
  intro b
  induction b with
  | zero => intro k t; simp [runRounds]
  | succ b ih =>
    intro k t
    show runRounds service (b + 1) k t = _
    rw [runRounds.eq_def]
    dsimp only
    rw [if_pos (h k)]
    rw [ih (k + 1) (service k).text]
    cases b with
    | zero => simp
    | succ b =>
      have h1 : k + 1 + (b + 1) = k + (b + 1 + 1) := by omega
      have h2 : k + 1 + (b + 1) - 1 = k + (b + 1 + 1) - 1 := by omega
      simp only [h1, h2]
      simp

theorem stepClient_fallback_sticky (s : ClientState) (e : ClientEvent)
    (h : s.fallbackMode = true) : (stepClient s e).fallbackMode = true := by
  cases e with
  | connectAttempt o => cases o <;> simp [stepClient, h]
  | disconnectCall => simp [stepClient, h]
  | streamFinished => simp [stepClient, h]

theorem runClient_fallback_sticky :
    ∀ (events : List ClientEvent) (s : ClientState), s.fallbackMode = true →
      (runClient s events).fallbackMode = true := by
  intro events
  induction events with
  | nil => intro s h; exact h
  | cons e evs ih =>
    intro s h
    show (runClient (stepClient s e) evs).fallbackMode = true
    exact ih _ (stepClient_fallback_sticky s e h)

theorem querySchemaAccepts_of_ne (qs : String) (h : qs ≠ "") :
    querySchemaAccepts qs = true := by
  by_cases hc : qs.toList = []
  · exact absurd (by rw [← stringMk_toList qs, hc]) h
  · have hpos : 0 < qs.toList.length := List.length_pos.mpr hc
    have hlen : qs.length = qs.toList.length := rfl
    simp only [querySchemaAccepts, decide_eq_true_eq]
    omega

theorem fencedJsonText_ne_empty (j : Json) : fencedJsonText j ≠ "" := by
  intro h
  have : (fencedJsonText j).toList = ("" : String).toList := by rw [h]
  simp only [fencedJsonText] at this
  have h2 : fenceJsonMarker ++ '\n' :: serJson j ++ '\n' :: fenceMarker = [] := this
  exact List.cons_ne_nil _ _ h2

/-- C1 counterexample: the claim asserts that a failing connect() clears
the tool-provider handle.  The fallback-mode connect() never touches
mcpClient in its catch block: from a state holding a live handle, a
failing connect enters fallback mode but leaves the handle in place. -/
theorem connect_failure_keeps_handle_counterexample :
    (connectClient { mcpClient := some 0, fallbackMode := false }
      (.error "connection refused")).fallbackMode = true ∧
    (connectClient { mcpClient := some 0, fallbackMode := false }
      (.error "connection refused")).mcpClient = some 0 :=
  ⟨rfl, rfl⟩

/-- C1 (amended): connect() is a total state transformer — no exception
escapes it; on any connection failure the mode becomes DEGRADED and every
subsequent tools request returns the empty ToolSet; the handle is left
unchanged rather than actively cleared (so a fresh client whose connect
never succeeded still has a null handle). -/
theorem connect_failure_degrades (s : ClientState) (msg : String)
    (adv : List String) :
    (connectClient s (.error msg)).fallbackMode = true ∧
    currentMode (connectClient s (.error msg)) = .degraded ∧
    toolsForSearch (connectClient s (.error msg)) adv = [] ∧
    (connectClient s (.error msg)).mcpClient = s.mcpClient ∧
    (s.mcpClient = none → (connectClient s (.error msg)).mcpClient = none) := by
  refine ⟨rfl, rfl, rfl, rfl, fun h => ?_⟩
  show s.mcpClient = none
  exact h

/-- C1 witness: a fresh client whose only connect attempt fails is
degraded with a null handle. -/
theorem connect_failure_degrades_witness :
    (connectClient initialClientState (.error "ECONNREFUSED")).fallbackMode = true ∧
    (connectClient initialClientState (.error "ECONNREFUSED")).mcpClient = none := by
  obtain ⟨h1, _, _, _, h5⟩ :=
    connect_failure_degrades initialClientState "ECONNREFUSED" []
  exact ⟨h1, h5 rfl⟩

/-- C2 (confirmed): whenever the extraction tail of
searchWithStructuredOutput returns a success value — in either revision —
that value passes the target schema validation (validation being success
of the full zod parse, all-or-nothing over the whole schema). -/
theorem searchExtract_success_validates (text : String) (S : Schema) (v : Json)
    (hwf : wfSchema S = true) :
    (searchWithStructuredOutputExtract text S = .ok v → validate S v = true) ∧
    (searchWithStructuredOutputExtractV3 text S = .ok v → validate S v = true) := by
  constructor
  · intro h
    simp only [searchWithStructuredOutputExtract] at h
    match hp : parseJson (if text = "" then "{}" else text) with
    | none => rw [hp] at h; exact Except.noConfusion h
    | some parsed =>
      rw [hp] at h
      dsimp only at h
      match hz : zodParse S parsed with
      | some w =>
        rw [hz] at h
        dsimp only at h
        injection h with h
        rw [← h]
        exact zodParse_output_validates S parsed w hwf hz
      | none =>
        rw [hz] at h
        exact Except.noConfusion h
  · intro h
    simp only [searchWithStructuredOutputExtractV3] at h
    match hp : parseJson (String.mk (stripFenceChars
        (if text = "" then "{}" else text).toList)) with
    | none => rw [hp] at h; exact Except.noConfusion h
    | some parsed =>
      rw [hp] at h
      dsimp only at h
      match hz : zodParse S parsed with
      | some w =>
        rw [hz] at h
        dsimp only at h
        injection h with h
        rw [← h]
        exact zodParse_output_validates S parsed w hwf hz
      | none =>
        rw [hz] at h
        exact Except.noConfusion h

/-- C2 witness: extracting the empty-object text under the empty object
schema succeeds and the success value validates. -/
theorem searchExtract_success_validates_witness :
    wfSchema (Schema.object []) = true ∧
    searchWithStructuredOutputExtract "{}" (Schema.object []) = .ok (.obj []) ∧
    validate (Schema.object []) (Json.obj []) = true := by
  refine ⟨rfl, rfl, ?_⟩
  exact (searchExtract_success_validates "{}" (.object []) (.obj []) rfl).1 rfl

/-- C3 counterexample: with the agentic schema, unparseable text and text
that parses but fails validation are classified identically — both become
the single invalid-JSON error carrying the raw response text; no first
violated field or rule is reported, so the two failure kinds are not
distinguishable by the caller, contrary to the claim. -/
theorem extract_error_kinds_counterexample :
    searchWithStructuredOutputExtract "not valid json" AgenticAISearchResponseSchema =
      .error (.invalidJsonResponse "not valid json") ∧
    parseJson "{}" = some (.obj []) ∧
    validate AgenticAISearchResponseSchema (.obj []) = false ∧
    searchWithStructuredOutputExtract "{}" AgenticAISearchResponseSchema =
      .error (.invalidJsonResponse "{}") :=
  ⟨rfl, rfl, rfl, rfl⟩

/-- C3 (amended): the extraction tail classifies every failure — parse
failure and schema-validation failure alike — as one invalid-JSON error
carrying the raw response text (with the empty-object default text when
the model text was empty), in both revisions. -/
theorem extract_failures_carry_raw_text (text : String) (S : Schema)
    (e : ExtractError) :
    (searchWithStructuredOutputExtract text S = .error e →
      e = .invalidJsonResponse (if text = "" then "{}" else text)) ∧
    (searchWithStructuredOutputExtractV3 text S = .error e →
      e = .invalidJsonResponse (if text = "" then "{}" else text)) := by
  constructor
  · intro h
    simp only [searchWithStructuredOutputExtract] at h
    match hp : parseJson (if text = "" then "{}" else text) with
    | none =>
      rw [hp] at h
      dsimp only at h
      injection h with h
      exact h.symm
    | some parsed =>
      rw [hp] at h
      dsimp only at h
      match hz : zodParse S parsed with
      | some w => rw [hz] at h; exact Except.noConfusion h
      | none =>
        rw [hz] at h
        dsimp only at h
        injection h with h
        exact h.symm
  · intro h
    simp only [searchWithStructuredOutputExtractV3] at h
    match hp : parseJson (String.mk (stripFenceChars
        (if text = "" then "{}" else text).toList)) with
    | none =>
      rw [hp] at h
      dsimp only at h
      injection h with h
      exact h.symm
    | some parsed =>
      rw [hp] at h
      dsimp only at h
      match hz : zodParse S parsed with
      | some w => rw [hz] at h; exact Except.noConfusion h
      | none =>
        rw [hz] at h
        dsimp only at h
        injection h with h
        exact h.symm

/-- C3 witness: the error produced for unparseable text carries that raw
text. -/
theorem extract_failures_carry_raw_text_witness :
    ExtractError.invalidJsonResponse "not valid json" =
      .invalidJsonResponse
        (if ("not valid json" : String) = "" then "{}" else "not valid json") :=
  (extract_failures_carry_raw_text "not valid json"
    AgenticAISearchResponseSchema (.invalidJsonResponse "not valid json")).1 rfl

/-- C4 counterexample: the fallback-mode revision of the extraction tail
performs no fence stripping, so extracting a correctly fenced
serialization of the schema-valid empty legacy payload fails even though
validation succeeds — extraction does not succeed iff validation succeeds
for that pipeline. -/
theorem fence_roundtrip_counterexample :
    validate LegacyAISearchResponseSchema emptyLegacyResult = true ∧
    searchWithStructuredOutputExtract (fencedJsonText emptyLegacyResult)
      LegacyAISearchResponseSchema =
      .error (.invalidJsonResponse (fencedJsonText emptyLegacyResult)) :=
  ⟨rfl, rfl⟩

/-- C4 (amended): in the fence-stripping revision the round trip holds for
every JSON value and every schema: the stripping removes exactly the
opening and closing marker lines keeping the serialized interior verbatim,
and extraction of the fenced serialization succeeds exactly when the value
validates against the schema. -/
theorem fence_roundtrip_v3 (j : Json) (S : Schema) :
    stripFenceChars (fencedJsonText j).toList = serJson j ∧
    (searchWithStructuredOutputExtractV3 (fencedJsonText j) S).isOk = validate S j := by
  have hstrip : stripFenceChars (fencedJsonText j).toList = serJson j := by
    show stripFenceChars (fenceJsonMarker ++ '\n' :: serJson j ++ '\n' :: fenceMarker) = _
    exact stripFenceChars_fenced j
  refine ⟨hstrip, ?_⟩
  simp only [searchWithStructuredOutputExtractV3]
  rw [if_neg (fencedJsonText_ne_empty j)]
  rw [hstrip]
  rw [show String.mk (serJson j) = serialize j from rfl]
  rw [parseJson_serialize j]
  dsimp only
  unfold validate
  match hz : zodParse S j with
  | some v => rfl
  | none => rfl

/-- C5 (confirmed): for a request that passed validation and uses the
legacy structured schema, any failure of the orchestrated search is
masked: the route answers 200 with exactly the fixed empty payload, and
that payload itself validates against LegacyAISearchResponseSchema. -/
theorem legacy_failure_masked (qs : String) (e : ExtractError) (h : qs ≠ "") :
    aiSearchRoute (some qs) (.error e) = (200, emptyLegacyResult) ∧
    validate LegacyAISearchResponseSchema emptyLegacyResult = true := by
  refine ⟨?_, rfl⟩
  simp only [aiSearchRoute]
  rw [if_neg h, if_pos (querySchemaAccepts_of_ne qs h)]

/-- C5 witness: a concrete failed search under a non-blank query is
answered 200 with the fixed payload. -/
theorem legacy_failure_masked_witness :
    aiSearchRoute (some "coffee shops") (.error (.invalidJsonResponse "boom")) =
      (200, emptyLegacyResult) := by
  exact (legacy_failure_masked "coffee shops" (.invalidJsonResponse "boom")
    (by decide)).1

/-- C6 (confirmed): a missing or empty q parameter is rejected with 400
and the exact invalid-params body before any search outcome is consulted
(the response is the same whatever the search would return, so no network
call is needed); a non-empty q passes validation and the search outcome is
returned with 200. -/
theorem blank_query_rejected :
    (∀ o : Except ExtractError Json, aiSearchRoute none o = (400, invalidParamsBody)) ∧
    (∀ o : Except ExtractError Json, aiSearchRoute (some "") o = (400, invalidParamsBody)) ∧
    (∀ (qs : String) (r : Json), qs ≠ "" → aiSearchRoute (some qs) (.ok r) = (200, r)) := by
  refine ⟨fun o => rfl, fun o => rfl, fun qs r h => ?_⟩
  simp only [aiSearchRoute]
  rw [if_neg h, if_pos (querySchemaAccepts_of_ne qs h)]

/-- C6 witness: concrete requests with a missing, an empty, and a
non-empty q parameter. -/
theorem blank_query_rejected_witness :
    aiSearchRoute none (.ok (.num 1)) = (400, invalidParamsBody) ∧
    aiSearchRoute (some "") (.error (.invalidJsonResponse "x")) =
      (400, invalidParamsBody) ∧
    aiSearchRoute (some "coffee") (.ok emptyLegacyResult) = (200, emptyLegacyResult) := by
  obtain ⟨h1, h2, h3⟩ := blank_query_rejected
  exact ⟨h1 _, h2 _, h3 "coffee" _ (by decide)⟩

/-- C7 (confirmed; the multi-step loop is modelled from the spec, since
generateText lives in the external ai package): against a generative
service stub that always requests one more tool call, a run with step
budget N performs exactly N rounds of model invocation and then returns
the last available text — never more than N rounds. -/
theorem step_budget_exact (service : Nat → GenStep) (N : Nat)
    (halways : ∀ i, (service i).wantsTool = true) (hpos : 0 < N) :
    generateTextRun service N = (N, (service (N - 1)).text) := by
  unfold generateTextRun
  rw [runRounds_always_tool service halways N 0 ""]
  match N, hpos with
  | N + 1, _ => simp

/-- C7 witness: with the step budget the source passes (maxSteps = 5) and
an always-tool-calling stub, exactly five rounds run. -/
theorem step_budget_exact_witness :
    0 < searchMaxSteps ∧
    generateTextRun (fun _ => { text := "one more tool call", wantsTool := true })
      searchMaxSteps = (searchMaxSteps, "one more tool call") := by
  refine ⟨by decide, ?_⟩
  exact step_budget_exact _ searchMaxSteps (fun i => rfl) (by decide)

set_option maxRecDepth 8192 in
/-- C8 (confirmed): the conversation searchWithStructuredOutput sends
starts with the system message selected by the connection mode — the
tool-aware prompt when CONNECTED, the knowledge-only prompt when DEGRADED,
both demanding a JSON-only answer matching the schema — followed second by
the user query, in that order. -/
theorem structured_messages_order (s : ClientState) (q : String) :
    structuredMessages s.fallbackMode q =
      [{ role := .system, content := structuredSystemMessage s.fallbackMode },
       { role := .user, content := q }] ∧
    (currentMode s = .connected →
      structuredSystemMessage s.fallbackMode = toolStructuredSystemMessage) ∧
    (currentMode s = .degraded →
      structuredSystemMessage s.fallbackMode = fallbackStructuredSystemMessage) ∧
    containsSubstr toolStructuredSystemMessage
      "You must respond with valid JSON that matches the provided schema." = true ∧
    containsSubstr fallbackStructuredSystemMessage
      "You must respond with valid JSON that matches the provided schema." = true ∧
    containsSubstr toolStructuredSystemMessage "Use the available MCP tools" = true ∧
    containsSubstr fallbackStructuredSystemMessage
      "Answer questions using your knowledge base" = true := by
  refine ⟨rfl, ?_, ?_, by decide, by decide, by decide, by decide⟩
  · intro h
    unfold currentMode at h
    by_cases hf : s.fallbackMode
    · rw [if_pos hf] at h
      exact absurd h (by decide)
    · simp [structuredSystemMessage, hf]
  · intro h
    unfold currentMode at h
    by_cases hf : s.fallbackMode
    · simp [structuredSystemMessage, hf]
    · rw [if_neg hf] at h
      exact absurd h (by decide)

/-- C8 witness: on a fresh (connected) client the conversation is the
tool-aware system prompt followed by the user query. -/
theorem structured_messages_order_witness :
    structuredMessages initialClientState.fallbackMode
        "Find coffee shops in San Francisco" =
      [{ role := .system, content := toolStructuredSystemMessage },
       { role := .user, content := "Find coffee shops in San Francisco" }] := by
  obtain ⟨h1, h2, _, _, _, _, _⟩ :=
    structured_messages_order initialClientState "Find coffee shops in San Francisco"
  rw [h1, h2 rfl]

/-- C9 (confirmed): once fallback mode is set it is sticky for the
lifetime of the client instance: no later event — including a subsequent
successful connect that stores a live handle — clears it, so every
subsequent search obtains the empty ToolSet. -/
theorem degraded_mode_sticky (s : ClientState) (events : List ClientEvent)
    (adv : List String) (h : s.fallbackMode = true) :
    (runClient s events).fallbackMode = true ∧
    currentMode (runClient s events) = .degraded ∧
    toolsForSearch (runClient s events) adv = [] := by
  have h1 := runClient_fallback_sticky events s h
  refine ⟨h1, ?_, ?_⟩
  · unfold currentMode
    rw [if_pos h1]
  · simp [toolsForSearch, h1]

/-- C9 witness: a client degraded by a failed connect, then successfully
reconnected (live handle stored), still reports fallback mode and passes
no tools to the search. -/
theorem degraded_mode_sticky_witness :
    (runClient (connectClient initialClientState (.error "ECONNREFUSED"))
      [.connectAttempt (.ok 7), .disconnectCall]).fallbackMode = true ∧
    toolsForSearch (runClient (connectClient initialClientState (.error "ECONNREFUSED"))
      [.connectAttempt (.ok 7)]) ["listBrands", "listBusinessCategories"] = [] ∧
    (runClient (connectClient initialClientState (.error "ECONNREFUSED"))
      [.connectAttempt (.ok 7)]).mcpClient = some 7 := by
  refine ⟨?_, ?_, rfl⟩
  · exact (degraded_mode_sticky _ _ [] rfl).1
  · exact (degraded_mode_sticky _ [.connectAttempt (.ok 7)] _ rfl).2.2

/-- C10 (confirmed): an empty final text is replaced by the literal
empty-object text before parsing in both revisions: extraction of the
empty text never fails with a parse error, and it succeeds exactly when
the empty object validates against the target schema. -/
theorem empty_text_defaults_to_empty_object (S : Schema) :
    searchWithStructuredOutputExtract "" S =
      (match zodParse S (.obj []) with
       | some v => .ok v
       | none => .error (.invalidJsonResponse "{}")) ∧
    (searchWithStructuredOutputExtract "" S).isOk = validate S (.obj []) ∧
    searchWithStructuredOutputExtractV3 "" S =
      (match zodParse S (.obj []) with
       | some v => .ok v
       | none => .error (.invalidJsonResponse "{}")) ∧
    (searchWithStructuredOutputExtractV3 "" S).isOk = validate S (.obj []) := by
  have h1 : searchWithStructuredOutputExtract "" S =
      (match zodParse S (.obj []) with
       | some v => .ok v
       | none => .error (.invalidJsonResponse "{}")) := rfl
  have h3 : searchWithStructuredOutputExtractV3 "" S =
      (match zodParse S (.obj []) with
       | some v => .ok v
       | none => .error (.invalidJsonResponse "{}")) := rfl
  refine ⟨h1, ?_, h3, ?_⟩
  · rw [h1]
    unfold validate
    match hz : zodParse S (.obj []) with
    | some v => rfl
    | none => rfl
  · rw [h3]
    unfold validate
    match hz : zodParse S (.obj []) with
    | some v => rfl
    | none => rfl
